import Mathlib

/-!
Verification development for the LLM-Scraper batch orchestration engine.

Shallow embedding of the Go sources:
  * `src/manager/main.go`   — batch job model, processor retry loop (`processURL`),
    CSV ingestion (`handleFileUpload`), result collection (`startProcessing`,
    `updateJob`), observer notification (`notifyClients`).
  * `src/manager/parser.go` — multi-chunk LLM merge (`parseWithGemini`,
    `ensureKeyExists`, `dedupeStringSlice`, `containsAny`).

External effects (HTTP transport, JSON codecs, the filesystem, the LLM API)
are modelled as explicit oracle environments; everything the repository's own
code computes is embedded directly.
-/

namespace LLMScraper

/-! ### Job data model (main.go, `BatchJob`) -/

/-- One URL-processing job (`BatchJob` in main.go).  `status` and `error`
are the mutable outcome fields; jobs are created by ingestion with
status "pending", empty error and progress 0. -/
structure BatchJob where
  modelNumber : String
  url : String
  status : String
  error : String
  progress : Nat
  parseDescription : Option String
deriving Repr, DecidableEq

/-! ### Processor call with retry (main.go, `processURL`) -/

/-- Outcome of one `client.Post` attempt: either a transport-level failure
(`err != nil`, no response) or a completed round-trip carrying a status
code and a body. -/
inductive AttemptOutcome where
  | transportError (msg : String)
  | response (status : Nat) (body : String)
deriving Repr, DecidableEq

/-- An HTTP response as `processURL` sees it after `io.ReadAll`. -/
structure HttpResp where
  status : Nat
  body : String
deriving Repr, DecidableEq

/-- The two fields of `ParseResponse` that `processURL` inspects after a
successful unmarshal (`Status`, `Error`). -/
structure ParseResponseModel where
  status : String
  error : String
deriving Repr, DecidableEq

/-- Oracle environment for the external effects of `processURL`:
`mkdir` is the `os.MkdirAll` outcome; `decodeErrorResp` models
`json.Unmarshal(body, &errorResp)` (`some e` = success with `Error` field
`e`, `none` = unmarshal error); `decodeParseResponse` models
`json.Unmarshal(body, &parseResponse)` (the `Except` error carries the
unmarshal error text); `saveResults` models `job.saveResults` (its error
text when the artifact write fails).  `json.Marshal` of the request never
fails for this struct and is not modelled. -/
structure ProcessorEnv where
  mkdir : Except String Unit
  decodeErrorResp : String → Option String
  decodeParseResponse : String → Except String ParseResponseModel
  saveResults : ParseResponseModel → Except String Unit

/-- Result of `processURL`: how many `client.Post` attempts were made and
the function's returned error (`Except.ok` = `nil`). -/
structure ProcOutcome where
  attempts : Nat
  result : Except String Unit
deriving Repr

/-- The retry loop of `processURL` (main.go lines 115-128): up to `fuel`
attempts, indexed from `used`; a transport error records `lastErr` and
retries, a completed round-trip breaks out.  Returns (attempts made,
response if any, last transport error).  The fixed `retryDelay` sleep has
no functional content and is not modelled. -/
def runAttempts (f : Nat → AttemptOutcome) :
    Nat → Nat → Option String → Nat × Option HttpResp × Option String
  | 0, used, lastErr => (used, none, lastErr)
  | fuel + 1, used, lastErr =>
    match f used with
    | .response s b => (used + 1, some ⟨s, b⟩, lastErr)
    | .transportError m => runAttempts f fuel (used + 1) (some m)

/-- `maxRetries` in `processURL`. -/
def maxRetries : Nat := 3

/-- Processing of a completed round-trip (main.go lines 141-166): non-200
status is surfaced as a server error (decoded `error` field if the body
unmarshals, else the raw body); a 200 body is unmarshalled into
`ParseResponse`, its `Status` checked, and the results saved. -/
def handleResponse (env : ProcessorEnv) (r : HttpResp) : Except String Unit :=
  if r.status ≠ 200 then
    match env.decodeErrorResp r.body with
    | none => .error ("server error (status " ++ toString r.status ++ "): " ++ r.body)
    | some e => .error ("server error (status " ++ toString r.status ++ "): " ++ e)
  else
    match env.decodeParseResponse r.body with
    | .error m => .error ("failed to parse response: " ++ m)
    | .ok pr =>
      if pr.status ≠ "success" then .error ("processing failed: " ++ pr.error)
      else
        match env.saveResults pr with
        | .error m => .error ("failed to save results: " ++ m)
        | .ok _ => .ok ()

/-- `processURL` (main.go lines 77-176) over the attempt oracle `f`
(the outcome of the i-th `client.Post`).  `resp == nil` after the loop
means every attempt failed at transport level; Go's `fmt` renders the
never-assigned `lastErr` as "<nil>". -/
def processURL (env : ProcessorEnv) (f : Nat → AttemptOutcome) : ProcOutcome :=
  match env.mkdir with
  | .error m => { attempts := 0, result := .error ("failed to create directory: " ++ m) }
  | .ok _ =>
    let out := runAttempts f 3 0 none
    match out.2.1 with
    | none =>
      { attempts := out.1
        result := .error ("failed after " ++ toString maxRetries ++ " attempts: "
          ++ (match out.2.2 with | some m => m | none => "<nil>")) }
    | some r => { attempts := out.1, result := handleResponse env r }

/-- The worker body in `startProcessing` (main.go lines 408-418): a
processing error marks the job failed with the error text, success marks
it completed (the `Error` field is left as it was). -/
def runWorkerJob (env : ProcessorEnv) (f : Nat → AttemptOutcome) (job : BatchJob) : BatchJob :=
  match (processURL env f).result with
  | .error m => { job with status := "failed", error := m }
  | .ok _ => { job with status := "completed" }

/-! ### Batch state and result collection (main.go, `startProcessing` / `updateJob`) -/

/-- The mutable fields of `BatchProcess` that the collector touches.
`endTimeSet` records whether `EndTime` has been assigned; `notifications`
counts `notifyClients` calls. -/
structure BatchState where
  jobs : List BatchJob
  status : String
  progress : Nat
  endTimeSet : Bool
  notifications : Nat
deriving Repr, DecidableEq

/-- `updateJob` (main.go lines 453-462): replace the first job in the list
whose (ModelNumber, URL) pair matches the incoming job, leaving the rest
untouched (`break` after the first match). -/
def updateJob : List BatchJob → BatchJob → List BatchJob
  | [], _ => []
  | j :: rest, job =>
    if j.modelNumber = job.modelNumber ∧ j.url = job.url then job :: rest
    else j :: updateJob rest job

/-- One iteration of the result-collection loop in `startProcessing`
(main.go lines 434-446), carried over (state, completed count): increment
`completed`, `updateJob`, recompute `Progress = (completed * 100) / total`,
notify; when `completed == total`, also mark the batch completed, set
`EndTime` and issue the final notification. -/
def collectStep (total : Nat) : BatchState × Nat → BatchJob → BatchState × Nat :=
  fun st job =>
    let completed := st.2 + 1
    let s1 : BatchState :=
      { st.1 with
        jobs := updateJob st.1.jobs job
        progress := completed * 100 / total
        notifications := st.1.notifications + 1 }
    if completed = total then
      ({ s1 with status := "completed", endTimeSet := true,
                 notifications := s1.notifications + 1 }, completed)
    else (s1, completed)

/-- The collector of `startProcessing` (main.go lines 394-447): set the
batch status to "processing", then fold the collection loop over the
sequence of received results, with `total = len(bp.Jobs)` read once at the
start. -/
def startProcessingCollect (st : BatchState) (results : List BatchJob) : BatchState × Nat :=
  List.foldl (collectStep st.jobs.length) ({ st with status := "processing" }, 0) results

/-! ### String primitives

Character-list embeddings of the Go `strings` functions the code uses
(`strings.ToLower`, `strings.TrimSpace`, `strings.Join`); defined
structurally so the kernel can evaluate them on concrete inputs. -/

/-- `strings.ToLower`. -/
def toLowerStr (s : String) : String := ⟨s.data.map Char.toLower⟩

/-- `strings.TrimSpace`: drop leading and trailing whitespace. -/
def trimStr (s : String) : String :=
  ⟨((s.data.dropWhile Char.isWhitespace).reverse.dropWhile Char.isWhitespace).reverse⟩

/-- `strings.Join`. -/
def strJoin (sep : String) : List String → String
  | [] => ""
  | [a] => a
  | a :: rest => a ++ sep ++ strJoin sep rest

/-! ### CSV ingestion (main.go, `handleFileUpload` / `getColumnIndex`) -/

/-- Header normalisation in `handleFileUpload`:
`strings.ToLower(strings.TrimSpace(header))`. -/
def normHeader (h : String) : String := toLowerStr (trimStr h)

/-- The required-column scan of `handleFileUpload` (main.go lines 273-278):
every header whose normalised form equals `name` overwrites the stored
index, so the last occurrence wins.  `none` models the `-1` sentinel. -/
def requiredIdx (headers : List String) (name : String) : Option Nat :=
  (List.range headers.length).foldl
    (fun acc i => if normHeader (headers.getD i "") = name then some i else acc) none

/-- `getColumnIndex` (main.go lines 348-355): first header matching
`columnName` case-insensitively (header trimmed then lowered). -/
def getColumnIndex (headers : List String) (columnName : String) : Option Nat :=
  go headers 0
where
  go : List String → Nat → Option Nat
  | [], _ => none
  | h :: rest, i =>
    if toLowerStr (trimStr h) = toLowerStr columnName then some i else go rest (i + 1)

/-- Construction of one `BatchJob` from a CSV record (main.go lines
310-324): url / model_number taken from the detected columns, optional
parse_description attached when that column exists, is in range and the
value is non-empty. -/
def rowJob (headers : List String) (ui mi : Nat) (row : List String) : BatchJob :=
  { modelNumber := row.getD mi ""
    url := row.getD ui ""
    status := "pending"
    error := ""
    progress := 0
    parseDescription :=
      match getColumnIndex headers "parse_description" with
      | some di =>
        if di < row.length then
          (if row.getD di "" ≠ "" then some (row.getD di "") else none)
        else none
      | none => none }

/-- The per-record loop of `handleFileUpload` (main.go lines 299-326).
`encoding/csv` yields an error for any record whose field count differs
from the header's, which the handler turns into an immediate rejection;
otherwise a job is built from the url / model_number columns, with the
optional parse_description attached when present and non-empty. -/
def buildJobs (headers : List String) (ui mi : Nat) :
    List (List String) → List BatchJob → Except String (List BatchJob)
  | [], acc => .ok acc
  | row :: rest, acc =>
    if row.length ≠ headers.length then .error "Error reading CSV file"
    else buildJobs headers ui mi rest (acc ++ [rowJob headers ui mi row])

/-- The ingestion core of `handleFileUpload` (main.go lines 259-332):
validate the required columns, build one job per data record, and reject a
file yielding zero jobs.  (Go iterates the `requiredColumns` map in
unspecified order when reporting a missing column; we report `url` first.)
The returned job list is the `Jobs` slice of the created batch. -/
def handleFileUpload (headers : List String) (records : List (List String)) :
    Except String (List BatchJob) :=
  match requiredIdx headers "url", requiredIdx headers "model_number" with
  | none, _ => .error "Missing required column: url"
  | some _, none => .error "Missing required column: model_number"
  | some ui, some mi =>
    match buildJobs headers ui mi records [] with
    | .error e => .error e
    | .ok jobs =>
      if jobs.isEmpty then .error "No valid jobs found in the CSV file"
      else .ok jobs

/-! ### Values flowing through the Gemini merge (parser.go) -/

/-- A dynamically-typed value as the merge code of `parseWithGemini`
distinguishes them via Go type assertions: a `string`, a `[]string`, or
anything else (`other` also covers `[]interface\x7b\x7d`, which is what
`json.Unmarshal` produces for JSON arrays — that type satisfies neither
the `.(string)` nor the `.([]string)` assertion). -/
inductive GoVal where
  | str (s : String)
  | strList (xs : List String)
  | other
deriving Repr, DecidableEq

/-- A `map[string]interface\x7b\x7d` as an association list.  Go map keys
are unique; theorems that depend on it carry a `Nodup` hypothesis on the
keys. -/
abbrev Record := List (String × GoVal)

/-- Go map read `m[k]` (first binding of the key; unique in a real map). -/
def getVal : Record → String → Option GoVal
  | [], _ => none
  | (k', v) :: rest, k => if k' = k then some v else getVal rest k

/-- Go map write `m[k] = v`: overwrite the binding if present, insert
otherwise. -/
def setKey : Record → String → GoVal → Record
  | [], k, v => [(k, v)]
  | (k', v') :: rest, k, v =>
    if k' = k then (k, v) :: rest else (k', v') :: setKey rest k v

/-- `ensureKeyExists` (parser.go lines 282-286): insert a default when the
key is absent. -/
def ensureKeyExists (m : Record) (key : String) (defaultValue : GoVal) : Record :=
  match getVal m key with
  | some _ => m
  | none => m ++ [(key, defaultValue)]

/-- The record normalisation applied to each successfully unmarshalled
product record (parser.go lines 188-200): backfill missing expected keys
with "NO_MATCH" / empty lists, then lift a non-placeholder string value of
the two document keys into a singleton list. -/
def normalizeProductRecord (r : Record) : Record :=
  let r := ensureKeyExists r "name" (.str "NO_MATCH")
  let r := ensureKeyExists r "model_number" (.str "NO_MATCH")
  let r := ensureKeyExists r "serial_number" (.str "NO_MATCH")
  let r := ensureKeyExists r "warranty_info" (.str "NO_MATCH")
  let r := ensureKeyExists r "user_manual" (.strList [])
  let r := ensureKeyExists r "other_documents" (.strList [])
  let r := liftDocKey r "user_manual"
  liftDocKey r "other_documents"
where
  /-- The `for _, key := range ...` body: a string value other than
  "NO_MATCH" becomes `[]string\x7bval\x7d`. -/
  liftDocKey (r : Record) (key : String) : Record :=
    match getVal r key with
    | some (.str v) => if v ≠ "NO_MATCH" then setKey r key (.strList [v]) else r
    | _ => r

/-- The initial `combinedResults` map (parser.go lines 217-225). -/
def initCombined : Record :=
  [("name", .str "NO_MATCH"),
   ("model_number", .str "NO_MATCH"),
   ("serial_number", .str "NO_MATCH"),
   ("warranty_info", .str "NO_MATCH"),
   ("user_manual", .strList []),
   ("other_documents", .strList []),
   ("additional_info", .strList [])]

/-- One key/value contribution inside the merge loop (parser.go lines
234-252).  Document keys append to the accumulated `[]string` (a string
value other than "NO_MATCH" counts as a singleton); any other key is a
scalar write that only lands when the current combined value is the
string "NO_MATCH".  (For the document keys the combined value is always a
`[]string`, so the fallthrough arm is unreachable; Go would panic on its
type assertion otherwise.) -/
def mergeEntry (c : Record) (kv : String × GoVal) : Record :=
  if kv.1 = "user_manual" ∨ kv.1 = "other_documents" then
    match kv.2 with
    | .strList xs =>
      match getVal c kv.1 with
      | some (.strList cur) => setKey c kv.1 (.strList (cur ++ xs))
      | _ => c
    | .str s =>
      if s ≠ "NO_MATCH" then
        match getVal c kv.1 with
        | some (.strList cur) => setKey c kv.1 (.strList (cur ++ [s]))
        | _ => c
      else c
    | _ => c
  else
    match kv.2 with
    | .str s =>
      if s ≠ "NO_MATCH" then
        match getVal c kv.1 with
        | some (.str cur) => if cur = "NO_MATCH" then setKey c kv.1 (.str s) else c
        | _ => c
      else c
    | _ => c

/-- Merging one found result into `combinedResults` (parser.go lines
226-253).  A record carrying a `raw_content` key only contributes that
string to `additional_info` (`continue`); the unchecked `.(string)`
assertion on a non-string `raw_content` would panic, modelled as `none`. -/
def mergeRecord (c : Record) (r : Record) : Option Record :=
  match getVal r "raw_content" with
  | some (.str v) =>
    match getVal c "additional_info" with
    | some (.strList cur) => some (setKey c "additional_info" (.strList (cur ++ [v])))
    | _ => some c
  | some _ => none
  | none => some (List.foldl mergeEntry c r)

/-- The whole product merge over the found records, ignoring the panic
path (every record free of `raw_content`). -/
def mergeRecords (rs : List Record) : Record :=
  rs.foldl (fun c r => List.foldl mergeEntry c r) initCombined

/-- The seen-set deduplication inside `dedupeStringSlice` (parser.go lines
290-297): keep the first occurrence of each string, in order.  Membership
in the accumulated output list coincides with membership in the `allKeys`
set the Go code maintains. -/
def dedupeStringList (xs : List String) : List String :=
  xs.foldl (fun acc item => if item ∈ acc then acc else acc ++ [item]) []

/-- `dedupeStringSlice` (parser.go lines 288-300): dedupe the `[]string`
stored under `key`, if that is what is stored there. -/
def dedupeStringSlice (m : Record) (key : String) : Record :=
  match getVal m key with
  | some (.strList xs) => setKey m key (.strList (dedupeStringList xs))
  | _ => m

/-- The three `dedupeStringSlice` calls ending the product merge
(parser.go lines 254-256). -/
def dedupeCombined (c : Record) : Record :=
  dedupeStringSlice (dedupeStringSlice (dedupeStringSlice c "user_manual") "other_documents")
    "additional_info"

/-! ### parseWithGemini (parser.go lines 147-263) -/

/-- Elements of `foundResults`: a product record or a plain text response. -/
inductive FoundItem where
  | record (r : Record)
  | text (s : String)
deriving Repr, DecidableEq

/-- Overall outcome of `parseWithGemini`: the `(interface\x7b\x7d, error)`
pair, plus a `panicked` case for the code's unchecked type assertions. -/
inductive GeminiValue where
  | str (s : String)
  | record (c : Record)
deriving Repr, DecidableEq

inductive GOutcome where
  | ok (r : GeminiValue)
  | error (msg : String)
  | panicked
deriving Repr, DecidableEq

/-- Oracle environment for `parseWithGemini`: `llm` models
`client.CreateChatCompletion` applied to the instantiated prompt
(`Except.ok` carries `Choices[0].Message.Content`); `decodeRecord` models
`json.Unmarshal` of a response body into a `map[string]interface\x7b\x7d`.
The semaphore acquisition is modelled as succeeding (its failure aborts
before any group is processed). -/
structure GeminiEnv where
  llm : String → Except String String
  decodeRecord : String → Option Record

/-- `containsAny` (parser.go lines 265-272) over a substring test on the
character list. -/
def strContains (s sub : String) : Bool :=
  s.data.tails.any (fun t => sub.data.isPrefixOf t)

def containsAny (s : String) (substrings : List String) : Bool :=
  substrings.any (fun substr => strContains s substr)

/-- The prompt template installed by `NewUnifiedParser` (parser.go lines
76-98), with the original placeholders. -/
def promptTemplate : String :=
  "Analyze the following website content and extract relevant information based on the query.\n\n" ++
  "Website Content: {dom_content}\n\n" ++
  "Query: {parse_description}\n\n" ++
  "For product information queries, include details about:\n" ++
  "- Product name\n- Model number\n- Serial number\n- Warranty information\n" ++
  "- User manuals (with URLs if available)\n- Other relevant documents (with URLs if available)\n\n" ++
  "For other queries:\n- Provide relevant information from the content\n" ++
  "- Include specific data points when found\n- Return document/image URLs when relevant\n" ++
  "- Indicate if information is not found\n\n" ++
  "Please provide the information in a clear, structured format."

/-- The message content sent for one chunk group: the template with both
placeholders substituted (`strings.ReplaceAll` twice). -/
def buildPrompt (chunkGroup parseDescription : String) : String :=
  (promptTemplate.replace "{dom_content}" chunkGroup).replace
    "{parse_description}" parseDescription

/-- Response classification (parser.go line 180): empty after trimming, or
one of the canonical no-result phrases (lowercased comparison). -/
def isNoResult (content : String) : Bool :=
  content == "" || toLowerStr content == "no match" || toLowerStr content == "not found" ||
    toLowerStr content == "no information"

/-- The chunk grouping of the request loop (parser.go lines 156-158):
groups of 3 consecutive chunks joined with a single space. -/
def chunkGroups : List String → List String
  | [] => []
  | [a] => [strJoin " " [a]]
  | [a, b] => [strJoin " " [a, b]]
  | a :: b :: c :: rest => strJoin " " [a, b, c] :: chunkGroups rest

/-- The per-group request/classification loop of `parseWithGemini`
(parser.go lines 157-210), producing `foundResults`: an outright LLM
failure aborts the whole call with "gemini request failed"; a discarded
response contributes nothing; in product mode a response is decoded into a
normalised record (falling back to a raw_content record), otherwise kept
as text. -/
def processGroups (env : GeminiEnv) (isProduct : Bool) (parseDescription : String) :
    List String → Except String (List FoundItem)
  | [] => .ok []
  | g :: gs =>
    match env.llm (buildPrompt g parseDescription) with
    | .error e => .error ("gemini request failed: " ++ e)
    | .ok raw =>
      let content := trimStr raw
      if isNoResult content then processGroups env isProduct parseDescription gs
      else
        let item : FoundItem :=
          if isProduct then
            match env.decodeRecord content with
            | some r => .record (normalizeProductRecord r)
            | none => .record [("raw_content", .str content)]
          else .text content
        (processGroups env isProduct parseDescription gs).map (fun items => item :: items)

/-- Folding `foundResults` into `combinedResults` (product mode); a text
item would fail the `result.(map[string]interface\x7b\x7d)` assertion. -/
def combineFound (items : List FoundItem) : Option Record :=
  items.foldlM
    (fun c item =>
      match item with
      | .record r => mergeRecord c r
      | .text _ => none)
    initCombined

/-- `interfaceSliceToStringSlice` (parser.go lines 274-280): every found
item must be a string or the assertion panics. -/
def foundToStrings (items : List FoundItem) : Option (List String) :=
  items.mapM (fun item =>
    match item with
    | .text s => some s
    | .record _ => none)

/-- `parseWithGemini` (parser.go lines 147-263): classify the query, run
the chunk-group loop, and combine.  No found result at all yields the
"NO_MATCH" sentinel; product mode merges records and dedupes the list
fields; otherwise the texts are joined with newlines. -/
def parseWithGemini (env : GeminiEnv) (domChunks : List String)
    (parseDescription : String) : GOutcome :=
  let isProduct := containsAny (toLowerStr parseDescription)
    ["extract product", "product information", "product details"]
  match processGroups env isProduct parseDescription (chunkGroups domChunks) with
  | .error e => .error e
  | .ok found =>
    if found.isEmpty then .ok (.str "NO_MATCH")
    else if isProduct then
      match combineFound found with
      | none => .panicked
      | some c => .ok (.record (dedupeCombined c))
    else
      match foundToStrings found with
      | none => .panicked
      | some ss => .ok (.str (strJoin "\n" ss))

/-- Modelled from the spec: the merged scalar field the specification
prescribes — "the first non-placeholder value for that field in original
chunk order".  Used to compare the code's merge with the spec's words. -/
def specFirstNonPlaceholder (rs : List Record) (k : String) : String :=
  match rs with
  | [] => "NO_MATCH"
  | r :: rest =>
    match getVal r k with
    | some (.str v) => if v ≠ "NO_MATCH" then v else specFirstNonPlaceholder rest k
    | _ => specFirstNonPlaceholder rest k

/-- The strings one record contributes to a document-list key in the merge
loop: its `[]string` value, or a singleton for a non-placeholder string
value, or nothing. -/
def listContrib (r : Record) (k : String) : List String :=
  match getVal r k with
  | some (.strList xs) => xs
  | some (.str s) => if s ≠ "NO_MATCH" then [s] else []
  | _ => []

/-! ### Lock-discipline trace of the collector (main.go, for the
thread-safety claim) -/

/-- The mutable `BatchProcess` fields named by the thread-safety
invariant. -/
inductive BField where
  | fstatus | fprogress | fjobs | fendTime | fobservers
deriving Repr, DecidableEq

/-- One field access performed by the orchestration code, with whether
`bp.mu` is held at that moment. -/
structure FAccess where
  field : BField
  isWrite : Bool
  locked : Bool
deriving Repr, DecidableEq

/-- `updateJob` (main.go lines 453-462): scans and rewrites `bp.Jobs`
under `bp.mu`. -/
def updateJobTrace : List FAccess :=
  [⟨.fjobs, false, true⟩, ⟨.fjobs, true, true⟩]

/-- `notifyClients` (main.go lines 373-391): reads the snapshot fields and
the client list under `bp.mu`. -/
def notifyClientsTrace : List FAccess :=
  [⟨.fstatus, false, true⟩, ⟨.fprogress, false, true⟩,
   ⟨.fjobs, false, true⟩, ⟨.fobservers, false, true⟩]

/-- One iteration of the collector loop (main.go lines 434-446):
`bp.updateJob(job)` (locked), then the `bp.Progress` write on line 437
with no lock held, then `notifyClients`; on the final iteration also the
unlocked `bp.Status` and `bp.EndTime` writes (lines 442-443) and the final
notification. -/
def collectOneTrace (isLast : Bool) : List FAccess :=
  updateJobTrace ++ [⟨.fprogress, true, false⟩] ++ notifyClientsTrace ++
    (if isLast then
      [⟨.fstatus, true, false⟩, ⟨.fendTime, true, false⟩] ++ notifyClientsTrace
     else [])

/-- The field accesses of one `startProcessing` run collecting `n`
results (main.go lines 394-447): the unlocked `bp.Status = "processing"`
write (line 395), the unlocked reads of `bp.Jobs` for channel sizing and
job fan-out (lines 399-400, 424, 433), then the collector iterations. -/
def startProcessingTrace (n : Nat) : List FAccess :=
  [⟨.fstatus, true, false⟩, ⟨.fjobs, false, false⟩] ++
    (List.range n).flatMap (fun i => collectOneTrace (i + 1 == n))

/-! ### Concrete fixtures used by witness theorems -/

/-- A processor environment where every external effect succeeds and a
non-200 body decodes to the service error "bad request". -/
def envProcOk : ProcessorEnv :=
  { mkdir := .ok ()
    decodeErrorResp := fun _ => some "bad request"
    decodeParseResponse := fun _ => .ok { status := "success", error := "" }
    saveResults := fun _ => .ok () }

/-- Every attempt completes the round-trip with a 500 status. -/
def attemptsNonSuccess : Nat → AttemptOutcome := fun _ => .response 500 "oops"

/-- The first two attempts fail at transport level, the third succeeds. -/
def attemptsFlaky : Nat → AttemptOutcome := fun n =>
  if n < 2 then .transportError ("conn refused " ++ toString n) else .response 200 "body"

/-- Every attempt fails at transport level. -/
def attemptsDown : Nat → AttemptOutcome := fun n => .transportError ("down " ++ toString n)

/-- A freshly ingested job. -/
def jobFixture : BatchJob := ⟨"M1", "http://example.com", "pending", "", 0, none⟩

/-- The identification pair `updateJob` scans for. -/
def jobKey (j : BatchJob) : String × String := (j.modelNumber, j.url)

/-- A fresh two-job batch (distinct job keys). -/
def batchFixture : BatchState :=
  { jobs := [jobFixture, { jobFixture with modelNumber := "M2" }]
    status := "pending", progress := 0, endTimeSet := false, notifications := 0 }

/-- Both jobs of `batchFixture`, as completed results. -/
def resultsFixture : List BatchJob :=
  [{ jobFixture with status := "completed" },
   { jobFixture with modelNumber := "M2", status := "completed" }]

/-- A batch whose two jobs carry the same (modelNumber, url) pair. -/
def batchDupFixture : BatchState :=
  { jobs := [jobFixture, jobFixture]
    status := "pending", progress := 0, endTimeSet := false, notifications := 0 }

/-- Two received results for the duplicated job. -/
def resultsDupFixture : List BatchJob :=
  [{ jobFixture with status := "completed" }, { jobFixture with status := "failed", error := "e" }]

/-- A Gemini environment whose every model call fails outright. -/
def envBoom : GeminiEnv := { llm := fun _ => .error "boom", decodeRecord := fun _ => none }

/-- A Gemini environment whose every model call answers "No Match". -/
def envNoMatch : GeminiEnv := { llm := fun _ => .ok "No Match", decodeRecord := fun _ => none }

/-- Three chunk-group records as decoded and normalised from the merge
scenario chunks "Serial: AB123", "Model: X9", "Serial: ZZ999". -/
def recsFixture : List Record :=
  [normalizeProductRecord [("serial_number", .str "AB123")],
   normalizeProductRecord [("model_number", .str "X9")],
   normalizeProductRecord [("serial_number", .str "ZZ999")]]

/-- Three chunk-group records for the document-link merge scenario: two
groups return "manual.pdf", one returns "spec.pdf". -/
def recsListFixture : List Record :=
  [normalizeProductRecord [("user_manual", .str "manual.pdf")],
   normalizeProductRecord [("user_manual", .str "manual.pdf")],
   normalizeProductRecord [("user_manual", .str "spec.pdf")]]

end LLMScraper

namespace LLMScraper

/-! ### Theorems -/

/-- C2: a Processor call that completes a transport round-trip on the
first attempt with a non-success status performs exactly one attempt (no
retry), and the job becomes Failed with the service-provided error message
when the body parses as an error record, else with the raw status and
body. -/
theorem processURL_nonsuccess_single_attempt (env : ProcessorEnv)
    (f : Nat → AttemptOutcome) (s : Nat) (b : String) (job : BatchJob)
    (hmk : env.mkdir = .ok ()) (hs : s ≠ 200) (hf : f 0 = .response s b) :
    (processURL env f).attempts = 1 ∧
    (∀ e, env.decodeErrorResp b = some e →
      (processURL env f).result =
        .error ("server error (status " ++ toString s ++ "): " ++ e) ∧
      runWorkerJob env f job =
        { job with status := "failed",
                   error := "server error (status " ++ toString s ++ "): " ++ e }) ∧
    (env.decodeErrorResp b = none →
      (processURL env f).result =
        .error ("server error (status " ++ toString s ++ "): " ++ b) ∧
      runWorkerJob env f job =
        { job with status := "failed",
                   error := "server error (status " ++ toString s ++ "): " ++ b }) := by
  have hrun : runAttempts f 3 0 none = (1, some ⟨s, b⟩, none) := by
    simp [maxRetries, runAttempts, hf]
  have hproc : processURL env f = { attempts := 1, result := handleResponse env ⟨s, b⟩ } := by
    simp [processURL, hmk, hrun]
  refine ⟨by simp [hproc], ?_, ?_⟩
  · intro e he
    have hres : handleResponse env ⟨s, b⟩ =
        .error ("server error (status " ++ toString s ++ "): " ++ e) := by
      simp [handleResponse, hs, he]
    exact ⟨by simp [hproc, hres], by simp [runWorkerJob, hproc, hres]⟩
  · intro he
    have hres : handleResponse env ⟨s, b⟩ =
        .error ("server error (status " ++ toString s ++ "): " ++ b) := by
      simp [handleResponse, hs, he]
    exact ⟨by simp [hproc, hres], by simp [runWorkerJob, hproc, hres]⟩

theorem processURL_nonsuccess_single_attempt_witness :
    (processURL envProcOk attemptsNonSuccess).attempts = 1 ∧
    (processURL envProcOk attemptsNonSuccess).result =
      .error "server error (status 500): bad request" ∧
    runWorkerJob envProcOk attemptsNonSuccess jobFixture =
      { jobFixture with status := "failed",
                        error := "server error (status 500): bad request" } := by
  have h := processURL_nonsuccess_single_attempt envProcOk attemptsNonSuccess
    500 "oops" jobFixture rfl (by decide) rfl
  have h2 := h.2.1 "bad request" rfl
  exact ⟨h.1, h2.1, h2.2⟩

/-- C3: transport-level failures are retried (fixed delay, not modelled)
up to 3 total attempts.  A transport success at attempt i < 3 continues
exactly as if the first attempt had succeeded; two transport failures
followed by a success yields a Completed job with its error field
untouched when the rest of processing succeeds; three transport failures
yield a Failed job whose error states the attempt count and the last
transport error. -/
theorem processURL_transport_retry (env : ProcessorEnv) (hmk : env.mkdir = .ok ()) :
    (∀ (f : Nat → AttemptOutcome) i s b, i < maxRetries →
      (∀ j, j < i → ∃ m, f j = .transportError m) → f i = .response s b →
      (processURL env f).attempts = i + 1 ∧
      (processURL env f).result = (processURL env (fun _ => .response s b)).result) ∧
    (∀ (f : Nat → AttemptOutcome) b pr (job : BatchJob),
      (∃ m0, f 0 = .transportError m0) → (∃ m1, f 1 = .transportError m1) →
      f 2 = .response 200 b →
      env.decodeParseResponse b = .ok pr → pr.status = "success" →
      env.saveResults pr = .ok () →
      (runWorkerJob env f job).status = "completed" ∧
      (runWorkerJob env f job).error = job.error) ∧
    (∀ (f : Nat → AttemptOutcome) m0 m1 m2 (job : BatchJob),
      f 0 = .transportError m0 → f 1 = .transportError m1 → f 2 = .transportError m2 →
      (processURL env f).attempts = maxRetries ∧
      (processURL env f).result =
        .error ("failed after " ++ toString maxRetries ++ " attempts: " ++ m2) ∧
      runWorkerJob env f job =
        { job with status := "failed",
                   error := "failed after " ++ toString maxRetries ++ " attempts: " ++ m2 }) := by
  refine ⟨?_, ?_, ?_⟩
  · intro f i s b hi hprev hf
    have hconst : runAttempts (fun _ => AttemptOutcome.response s b) 3 0 none =
        (1, some ⟨s, b⟩, none) := by
      simp [maxRetries, runAttempts]
    have hi3 : i < 3 := by simpa [maxRetries] using hi
    interval_cases i
    · have hrun : runAttempts f 3 0 none = (1, some ⟨s, b⟩, none) := by
        simp [maxRetries, runAttempts, hf]
      constructor <;> simp [processURL, hmk, hrun, hconst]
    · obtain ⟨m0, h0⟩ := hprev 0 (by omega)
      have hrun : runAttempts f 3 0 none = (2, some ⟨s, b⟩, some m0) := by
        simp [maxRetries, runAttempts, h0, hf]
      constructor <;> simp [processURL, hmk, hrun, hconst]
    · obtain ⟨m0, h0⟩ := hprev 0 (by omega)
      obtain ⟨m1, h1⟩ := hprev 1 (by omega)
      have hrun : runAttempts f 3 0 none = (3, some ⟨s, b⟩, some m1) := by
        simp [maxRetries, runAttempts, h0, h1, hf]
      constructor <;> simp [processURL, hmk, hrun, hconst]
  · intro f b pr job h0 h1 h2 hdec hst hsave
    obtain ⟨m0, h0⟩ := h0
    obtain ⟨m1, h1⟩ := h1
    have hrun : runAttempts f 3 0 none = (3, some ⟨200, b⟩, some m1) := by
      simp [maxRetries, runAttempts, h0, h1, h2]
    have hres : handleResponse env ⟨200, b⟩ = .ok () := by
      simp [handleResponse, hdec, hst, hsave]
    constructor <;> simp [runWorkerJob, processURL, hmk, hrun, hres]
  · intro f m0 m1 m2 job h0 h1 h2
    have hrun : runAttempts f 3 0 none = (3, none, some m2) := by
      simp [maxRetries, runAttempts, h0, h1, h2]
    refine ⟨by simp [maxRetries, processURL, hmk, hrun], by simp [processURL, hmk, hrun], ?_⟩
    simp [runWorkerJob, processURL, hmk, hrun]

theorem processURL_transport_retry_witness :
    ((processURL envProcOk attemptsFlaky).attempts = 3 ∧
      (processURL envProcOk attemptsFlaky).result =
        (processURL envProcOk (fun _ => .response 200 "body")).result) ∧
    ((runWorkerJob envProcOk attemptsFlaky jobFixture).status = "completed" ∧
      (runWorkerJob envProcOk attemptsFlaky jobFixture).error = jobFixture.error) ∧
    ((processURL envProcOk attemptsDown).attempts = maxRetries ∧
      (processURL envProcOk attemptsDown).result =
        .error "failed after 3 attempts: down 2") := by
  have h := processURL_transport_retry envProcOk rfl
  refine ⟨?_, ?_, ?_⟩
  · exact h.1 attemptsFlaky 2 200 "body" (by decide)
      (fun j hj => by interval_cases j <;> exact ⟨_, rfl⟩) rfl
  · exact h.2.1 attemptsFlaky "body" { status := "success", error := "" } jobFixture
      ⟨_, rfl⟩ ⟨_, rfl⟩ rfl rfl rfl rfl
  · have h3 := h.2.2 attemptsDown "down 0" "down 1" "down 2" jobFixture rfl rfl rfl
    exact ⟨h3.1, h3.2.1⟩

/-! ### Collector lemmas (shared by the batch-progress theorems) -/

theorem collectStep_snd (total : Nat) (s : BatchState × Nat) (job : BatchJob) :
    (collectStep total s job).2 = s.2 + 1 := by
  unfold collectStep; dsimp only; split <;> rfl

theorem collectStep_fst_progress (total : Nat) (s : BatchState × Nat) (job : BatchJob) :
    (collectStep total s job).1.progress = (s.2 + 1) * 100 / total := by
  unfold collectStep; dsimp only; split <;> rfl

theorem collectStep_fst_jobs (total : Nat) (s : BatchState × Nat) (job : BatchJob) :
    (collectStep total s job).1.jobs = updateJob s.1.jobs job := by
  unfold collectStep; dsimp only; split <;> rfl

theorem collectStep_not_total (total : Nat) (s : BatchState × Nat) (job : BatchJob)
    (h : s.2 + 1 ≠ total) :
    (collectStep total s job).1.status = s.1.status ∧
    (collectStep total s job).1.endTimeSet = s.1.endTimeSet ∧
    (collectStep total s job).1.notifications = s.1.notifications + 1 := by
  unfold collectStep; dsimp only; rw [if_neg h]; exact ⟨rfl, rfl, rfl⟩

theorem collectStep_at_total (total : Nat) (s : BatchState × Nat) (job : BatchJob)
    (h : s.2 + 1 = total) :
    (collectStep total s job).1.status = "completed" ∧
    (collectStep total s job).1.endTimeSet = true ∧
    (collectStep total s job).1.notifications = s.1.notifications + 2 := by
  unfold collectStep; dsimp only; rw [if_pos h]; exact ⟨rfl, rfl, rfl⟩

theorem foldl_collect_count (total : Nat) :
    ∀ (rs : List BatchJob) (s : BatchState) (c : Nat),
    (List.foldl (collectStep total) (s, c) rs).2 = c + rs.length := by
  intro rs
  induction rs with
  | nil => intro s c; simp
  | cons x rs ih =>
    intro s c
    rw [List.foldl_cons, ← Prod.mk.eta (p := collectStep total (s, c) x), ih,
      collectStep_snd]
    simp only [List.length_cons]
    omega

theorem foldl_collect_progress (total : Nat) :
    ∀ (rs : List BatchJob) (s : BatchState) (c : Nat), rs ≠ [] →
    (List.foldl (collectStep total) (s, c) rs).1.progress = (c + rs.length) * 100 / total := by
  intro rs
  induction rs with
  | nil => intro s c h; exact absurd rfl h
  | cons x rs ih =>
    intro s c _
    rw [List.foldl_cons]
    rcases List.eq_nil_or_concat rs with hnil | hne
    · subst hnil
      simpa using collectStep_fst_progress total (s, c) x
    · have hrs : rs ≠ [] := by
        rcases hne with ⟨l, a, rfl⟩; simp
      rw [← Prod.mk.eta (p := collectStep total (s, c) x), ih _ _ hrs, collectStep_snd]
      simp only [List.length_cons]
      have : c + 1 + rs.length = c + (rs.length + 1) := by omega
      rw [this]

theorem foldl_collect_before (total : Nat) :
    ∀ (rs : List BatchJob) (s : BatchState) (c : Nat), c + rs.length < total →
    (List.foldl (collectStep total) (s, c) rs).1.status = s.status ∧
    (List.foldl (collectStep total) (s, c) rs).1.endTimeSet = s.endTimeSet := by
  intro rs
  induction rs with
  | nil => intro s c _; exact ⟨rfl, rfl⟩
  | cons x rs ih =>
    intro s c hlt
    rw [List.foldl_cons, ← Prod.mk.eta (p := collectStep total (s, c) x)]
    have hne : c + 1 ≠ total := by simp at hlt; omega
    have hst := collectStep_not_total total (s, c) x hne
    have hlt' : (collectStep total (s, c) x).2 + rs.length < total := by
      rw [collectStep_snd]; simp at hlt ⊢; omega
    obtain ⟨ha, hb⟩ := ih (collectStep total (s, c) x).1 _ hlt'
    exact ⟨ha.trans hst.1, hb.trans hst.2.1⟩

theorem foldl_collect_complete (total : Nat) :
    ∀ (rs : List BatchJob) (s : BatchState) (c : Nat), rs ≠ [] → c + rs.length = total →
    (List.foldl (collectStep total) (s, c) rs).1.status = "completed" ∧
    (List.foldl (collectStep total) (s, c) rs).1.endTimeSet = true ∧
    (List.foldl (collectStep total) (s, c) rs).1.notifications =
      s.notifications + rs.length + 1 := by
  intro rs
  induction rs with
  | nil => intro s c h; exact absurd rfl h
  | cons x rs ih =>
    intro s c _ htot
    rw [List.foldl_cons]
    rcases List.eq_nil_or_concat rs with hnil | hne
    · subst hnil
      have heq : c + 1 = total := by simpa using htot
      have hst := collectStep_at_total total (s, c) x heq
      simp only [List.foldl_nil]
      exact ⟨hst.1, hst.2.1, by rw [hst.2.2]; dsimp only; simp⟩
    · have hrs : rs ≠ [] := by rcases hne with ⟨l, a, rfl⟩; simp
      have hlen1 : 1 ≤ rs.length := by
        cases rs with
        | nil => exact absurd rfl hrs
        | cons _ _ => simp
      have hne1 : c + 1 ≠ total := by simp at htot; omega
      have hst := collectStep_not_total total (s, c) x hne1
      rw [← Prod.mk.eta (p := collectStep total (s, c) x)]
      have htot' : (collectStep total (s, c) x).2 + rs.length = total := by
        rw [collectStep_snd]; simp at htot ⊢; omega
      obtain ⟨ha, hb, hc⟩ := ih (collectStep total (s, c) x).1 _ hrs htot'
      refine ⟨ha, hb, ?_⟩
      rw [hc, hst.2.2]
      simp only [List.length_cons]
      omega

/-- C1: with N >= 1 jobs, after k collected results (0 <= k <= N) the
batch progress equals floor(100 k / N); for every k < N the batch is still
"processing" with no end time; and after all N results the progress is
100, the status is "completed", the end time is set exactly then, and a
final observer notification has been issued (N + 1 notifications in
total, so the completion transition fired exactly once). -/
theorem batch_progress_and_completion (st : BatchState) (results : List BatchJob)
    (hN : 1 ≤ st.jobs.length) (hlen : results.length = st.jobs.length)
    (hp : st.progress = 0) (he : st.endTimeSet = false) :
    (∀ k, k ≤ st.jobs.length →
      (startProcessingCollect st (results.take k)).1.progress =
        100 * k / st.jobs.length) ∧
    (∀ k, k < st.jobs.length →
      (startProcessingCollect st (results.take k)).1.status = "processing" ∧
      (startProcessingCollect st (results.take k)).1.endTimeSet = false) ∧
    (startProcessingCollect st results).2 = st.jobs.length ∧
    (startProcessingCollect st results).1.progress = 100 ∧
    (startProcessingCollect st results).1.status = "completed" ∧
    (startProcessingCollect st results).1.endTimeSet = true ∧
    (startProcessingCollect st results).1.notifications =
      st.notifications + st.jobs.length + 1 := by
  have hres_ne : results ≠ [] := by
    intro hnil; rw [hnil] at hlen; simp at hlen; omega
  refine ⟨?_, ?_, ?_, ?_, ?_, ?_, ?_⟩
  · intro k hk
    cases Nat.eq_zero_or_pos k with
    | inl h0 =>
      subst h0
      simp [startProcessingCollect, hp]
    | inr hpos =>
      have htk : (results.take k) ≠ [] := by
        intro hnil
        have h0 : (results.take k).length = 0 := by rw [hnil]; rfl
        rw [List.length_take, hlen] at h0
        omega
      unfold startProcessingCollect
      rw [foldl_collect_progress _ _ _ _ htk]
      have hlk : (results.take k).length = k := by
        rw [List.length_take, hlen]; omega
      rw [hlk, Nat.zero_add, Nat.mul_comm]
  · intro k hk
    unfold startProcessingCollect
    have hlt : 0 + (results.take k).length < st.jobs.length := by
      rw [List.length_take, hlen]; omega
    obtain ⟨ha, hb⟩ := foldl_collect_before st.jobs.length (results.take k) _ 0 hlt
    exact ⟨ha, hb.trans he⟩
  · unfold startProcessingCollect
    rw [foldl_collect_count, hlen, Nat.zero_add]
  · unfold startProcessingCollect
    rw [foldl_collect_progress _ _ _ _ hres_ne, hlen, Nat.zero_add,
      Nat.mul_comm, Nat.mul_div_cancel _ (by omega)]
  · unfold startProcessingCollect
    exact (foldl_collect_complete st.jobs.length results { st with status := "processing" } 0
      hres_ne (by rw [hlen, Nat.zero_add])).1
  · unfold startProcessingCollect
    exact (foldl_collect_complete st.jobs.length results { st with status := "processing" } 0
      hres_ne (by rw [hlen, Nat.zero_add])).2.1
  · unfold startProcessingCollect
    have h := (foldl_collect_complete st.jobs.length results { st with status := "processing" } 0
      hres_ne (by rw [hlen, Nat.zero_add])).2.2
    rw [h, hlen]

theorem batch_progress_and_completion_witness :
    (startProcessingCollect batchFixture (resultsFixture.take 1)).1.progress = 50 ∧
    (startProcessingCollect batchFixture (resultsFixture.take 1)).1.status = "processing" ∧
    (startProcessingCollect batchFixture resultsFixture).2 = 2 ∧
    (startProcessingCollect batchFixture resultsFixture).1.progress = 100 ∧
    (startProcessingCollect batchFixture resultsFixture).1.status = "completed" ∧
    (startProcessingCollect batchFixture resultsFixture).1.endTimeSet = true ∧
    (startProcessingCollect batchFixture resultsFixture).1.notifications = 3 := by
  have h := batch_progress_and_completion batchFixture resultsFixture
    (by decide) (by decide) rfl rfl
  refine ⟨?_, (h.2.1 1 (by decide)).1, h.2.2.1, h.2.2.2.1, h.2.2.2.2.1,
    h.2.2.2.2.2.1, h.2.2.2.2.2.2⟩
  have := h.1 1 (by decide)
  simpa using this

/-! ### updateJob lemmas (duplicate job keys) -/

theorem updateJob_map_key (jobs : List BatchJob) (job : BatchJob) :
    (updateJob jobs job).map jobKey = jobs.map jobKey := by
  induction jobs with
  | nil => rfl
  | cons j rest ih =>
    by_cases h : j.modelNumber = job.modelNumber ∧ j.url = job.url
    · simp [updateJob, h, jobKey, h.1, h.2]
    · simp [updateJob, h, ih]

theorem updateJob_getElem?_of_earlier_match :
    ∀ (jobs : List BatchJob) (n : Nat) (job b : BatchJob),
    jobs[n]? = some b →
    (¬(b.modelNumber = job.modelNumber ∧ b.url = job.url) ∨
      ∃ i x, i < n ∧ jobs[i]? = some x ∧
        x.modelNumber = job.modelNumber ∧ x.url = job.url) →
    (updateJob jobs job)[n]? = some b := by
  intro jobs
  induction jobs with
  | nil => intro n job b hb _; simp at hb
  | cons j rest ih =>
    intro n job b hb hdisj
    by_cases hm : j.modelNumber = job.modelNumber ∧ j.url = job.url
    · rw [updateJob, if_pos hm]
      cases n with
      | zero =>
        simp at hb
        rcases hdisj with hno | ⟨i, x, hi, _, _⟩
        · exact absurd (hb ▸ hm) hno
        · omega
      | succ n' => simpa using (by simpa using hb : rest[n']? = some b)
    · rw [updateJob, if_neg hm]
      cases n with
      | zero => simpa using hb
      | succ n' =>
        have hb' : rest[n']? = some b := by simpa using hb
        have hdisj' : ¬(b.modelNumber = job.modelNumber ∧ b.url = job.url) ∨
            ∃ i x, i < n' ∧ rest[i]? = some x ∧
              x.modelNumber = job.modelNumber ∧ x.url = job.url := by
          rcases hdisj with hno | ⟨i, x, hi, hx, hk⟩
          · exact Or.inl hno
          · cases i with
            | zero =>
              simp at hx
              exact absurd (hx ▸ hk) hm
            | succ i' =>
              refine Or.inr ⟨i', x, by omega, by simpa using hx, hk⟩
        simpa using ih n' job b hb' hdisj'

theorem updateJob_preserves_dup (jobs : List BatchJob) (job b : BatchJob) (i n : Nat)
    (hin : i < n) (hn : jobs[n]? = some b)
    (hx : ∃ x, jobs[i]? = some x ∧ jobKey x = jobKey b) :
    (updateJob jobs job)[n]? = some b ∧
    ∃ x, (updateJob jobs job)[i]? = some x ∧ jobKey x = jobKey b := by
  obtain ⟨x, hxi, hkx⟩ := hx
  constructor
  · apply updateJob_getElem?_of_earlier_match jobs n job b hn
    by_cases hb : b.modelNumber = job.modelNumber ∧ b.url = job.url
    · refine Or.inr ⟨i, x, hin, hxi, ?_, ?_⟩
      · have : x.modelNumber = b.modelNumber := congrArg Prod.fst hkx
        rw [this, hb.1]
      · have : x.url = b.url := congrArg Prod.snd hkx
        rw [this, hb.2]
    · exact Or.inl hb
  · have hmap := updateJob_map_key jobs job
    have h1 : ((updateJob jobs job).map jobKey)[i]? = (jobs.map jobKey)[i]? := by rw [hmap]
    rw [List.getElem?_map, List.getElem?_map, hxi] at h1
    simp only [Option.map_some'] at h1
    rcases h2 : (updateJob jobs job)[i]? with _ | y
    · rw [h2] at h1; simp at h1
    · rw [h2] at h1
      simp only [Option.map_some', Option.some.injEq] at h1
      exact ⟨y, rfl, h1.trans hkx⟩

theorem foldl_collect_dup (total : Nat) :
    ∀ (rs : List BatchJob) (s : BatchState) (c : Nat) (i n : Nat) (b : BatchJob),
    i < n → s.jobs[n]? = some b →
    (∃ x, s.jobs[i]? = some x ∧ jobKey x = jobKey b) →
    (List.foldl (collectStep total) (s, c) rs).1.jobs[n]? = some b := by
  intro rs
  induction rs with
  | nil => intro s c i n b _ hn _; simpa using hn
  | cons job rs ih =>
    intro s c i n b hin hn hx
    rw [List.foldl_cons, ← Prod.mk.eta (p := collectStep total (s, c) job)]
    have hprev := updateJob_preserves_dup s.jobs job b i n hin hn hx
    have hjobs : (collectStep total (s, c) job).1.jobs = updateJob s.jobs job :=
      collectStep_fst_jobs total (s, c) job
    exact ih (collectStep total (s, c) job).1 _ i n b hin
      (by rw [hjobs]; exact hprev.1) (by rw [hjobs]; exact hprev.2)

/-- C10: in a batch whose job list has two entries with the same
(modelNumber, url) pair, the `updateJob` scan stops at the first match, so
the later duplicate entry is never replaced — it keeps its original
(pending) state even after every result has been collected — while each
received result still increments the completed count, so the batch still
reaches progress 100 and status "completed". -/
theorem duplicate_job_never_updated (st : BatchState) (results : List BatchJob)
    (i n : Nat) (b : BatchJob)
    (hin : i < n) (hn : st.jobs[n]? = some b)
    (hx : ∃ x, st.jobs[i]? = some x ∧ jobKey x = jobKey b)
    (hN : 1 ≤ st.jobs.length) (hlen : results.length = st.jobs.length) :
    (startProcessingCollect st results).1.jobs[n]? = some b ∧
    (startProcessingCollect st results).2 = st.jobs.length ∧
    (startProcessingCollect st results).1.progress = 100 ∧
    (startProcessingCollect st results).1.status = "completed" := by
  have hres_ne : results ≠ [] := by
    intro hnil; rw [hnil] at hlen; simp at hlen; omega
  refine ⟨?_, ?_, ?_, ?_⟩
  · unfold startProcessingCollect
    exact foldl_collect_dup st.jobs.length results { st with status := "processing" } 0
      i n b hin hn hx
  · unfold startProcessingCollect
    rw [foldl_collect_count, hlen, Nat.zero_add]
  · unfold startProcessingCollect
    rw [foldl_collect_progress _ _ _ _ hres_ne, hlen, Nat.zero_add,
      Nat.mul_comm, Nat.mul_div_cancel _ (by omega)]
  · unfold startProcessingCollect
    exact (foldl_collect_complete st.jobs.length results { st with status := "processing" } 0
      hres_ne (by rw [hlen, Nat.zero_add])).1

theorem duplicate_job_never_updated_witness :
    (startProcessingCollect batchDupFixture resultsDupFixture).1.jobs[1]? = some jobFixture ∧
    (startProcessingCollect batchDupFixture resultsDupFixture).2 = 2 ∧
    (startProcessingCollect batchDupFixture resultsDupFixture).1.progress = 100 ∧
    (startProcessingCollect batchDupFixture resultsDupFixture).1.status = "completed" ∧
    jobFixture.status = "pending" := by
  have h := duplicate_job_never_updated batchDupFixture resultsDupFixture 0 1 jobFixture
    (by decide) (by decide) ⟨jobFixture, by decide, rfl⟩ (by decide) (by decide)
  exact ⟨h.1, h.2.1, h.2.2.1, h.2.2.2, rfl⟩

/-! ### Ingestion (C8) -/

/-- C8 counterexample: a file with the required columns and 3 data rows,
one with an empty url, is neither rejected nor reduced to 2 jobs — the
handler produces a 3-job batch whose second job has an empty url. -/
theorem ingestion_keeps_empty_url_row :
    handleFileUpload ["model_number", "url"] [["m1", "u1"], ["m2", ""], ["m3", "u3"]] =
      .ok [⟨"m1", "u1", "pending", "", 0, none⟩,
           ⟨"m2", "", "pending", "", 0, none⟩,
           ⟨"m3", "u3", "pending", "", 0, none⟩] := by rfl

theorem buildJobs_ok (headers : List String) (ui mi : Nat) :
    ∀ (rows : List (List String)) (acc : List BatchJob),
    (∀ row ∈ rows, row.length = headers.length) →
    buildJobs headers ui mi rows acc = .ok (acc ++ rows.map (rowJob headers ui mi)) := by
  intro rows
  induction rows with
  | nil => intro acc _; simp [buildJobs]
  | cons row rest ih =>
    intro acc hrows
    have hrow : row.length = headers.length := hrows row (by simp)
    rw [buildJobs, if_neg (by omega)]
    rw [ih (acc ++ [rowJob headers ui mi row]) (fun r hr => hrows r (by simp [hr]))]
    simp

/-- C8 (amended): when both required columns are present and every record
is well-formed, ingestion keeps every data row verbatim — one job per row,
with the row's url column copied into the job even when it is empty; only
a file yielding zero jobs (or missing a required column, or a malformed
row) is rejected. -/
theorem ingestion_keeps_all_rows (headers : List String) (records : List (List String))
    (ui mi : Nat)
    (hu : requiredIdx headers "url" = some ui)
    (hm : requiredIdx headers "model_number" = some mi)
    (hrows : ∀ row ∈ records, row.length = headers.length)
    (hne : records ≠ []) :
    handleFileUpload headers records = .ok (records.map (rowJob headers ui mi)) ∧
    (records.map (rowJob headers ui mi)).length = records.length ∧
    (∀ (j : Nat) (row : List String), records[j]? = some row →
      (records.map (rowJob headers ui mi))[j]? = some (rowJob headers ui mi row) ∧
      (rowJob headers ui mi row).url = row.getD ui "" ∧
      (rowJob headers ui mi row).modelNumber = row.getD mi "" ∧
      (rowJob headers ui mi row).status = "pending" ∧
      (rowJob headers ui mi row).error = "") := by
  have hbuild := buildJobs_ok headers ui mi records [] hrows
  have hmain : handleFileUpload headers records = .ok (records.map (rowJob headers ui mi)) := by
    unfold handleFileUpload
    rw [hu, hm]
    dsimp only
    rw [hbuild]
    simp only [List.nil_append]
    have hmapne : (records.map (rowJob headers ui mi)) ≠ [] := by
      intro h0
      exact hne (List.map_eq_nil_iff.mp h0)
    rw [if_neg (by simpa [List.isEmpty_iff] using hmapne)]
  refine ⟨hmain, by simp, ?_⟩
  intro j row hj
  have hmap : (records.map (rowJob headers ui mi))[j]? = some (rowJob headers ui mi row) := by
    rw [List.getElem?_map, hj]
    rfl
  exact ⟨hmap, rfl, rfl, rfl, rfl⟩

theorem ingestion_keeps_all_rows_witness :
    handleFileUpload ["model_number", "url"] [["m1", "u1"], ["m2", ""], ["m3", "u3"]] =
      .ok ([["m1", "u1"], ["m2", ""], ["m3", "u3"]].map
        (rowJob ["model_number", "url"] 1 0)) ∧
    ([["m1", "u1"], ["m2", ""], ["m3", "u3"]].map
      (rowJob ["model_number", "url"] 1 0))[1]? =
        some (rowJob ["model_number", "url"] 1 0 ["m2", ""]) ∧
    (rowJob ["model_number", "url"] 1 0 ["m2", ""]).url = "" := by
  have h := ingestion_keeps_all_rows ["model_number", "url"]
    [["m1", "u1"], ["m2", ""], ["m3", "u3"]] 1 0 (by decide) (by decide)
    (by intro row hr; fin_cases hr <;> rfl) (by decide)
  have h3 := h.2.2 1 ["m2", ""] rfl
  exact ⟨h.1, h3.1, h3.2.1⟩

/-! ### Lock discipline (C9) -/

/-- C9 (code bug in the source): the collector goroutine of
`startProcessing` writes `bp.Progress` (main.go line 437) and, on
completion, `bp.Status` and `bp.EndTime` (lines 442-443) without holding
`bp.mu`, and line 395 writes `bp.Status` unlocked before processing; so
it is false that every access to the batch's mutable fields happens under
the lock. -/
theorem collector_writes_outside_lock :
    (⟨.fprogress, true, false⟩ : FAccess) ∈ startProcessingTrace 1 ∧
    (⟨.fstatus, true, false⟩ : FAccess) ∈ startProcessingTrace 1 ∧
    (⟨.fendTime, true, false⟩ : FAccess) ∈ startProcessingTrace 1 ∧
    ¬(∀ e ∈ startProcessingTrace 1, e.locked = true) := by decide

/-! ### parseWithGemini: group failure aborts the merge (C4) -/

/-- C4 counterexample: when the model call for a chunk group fails
outright, its contribution is not "omitted with the merge continuing" —
`parseWithGemini` fails as a whole with the transport error. -/
theorem gemini_group_failure_aborts :
    parseWithGemini envBoom ["chunk"] "extract product information" =
      .error "gemini request failed: boom" := by rfl

/-- C4 (amended): an outright model-call failure for a chunk group is not
skipped; the first failing group makes `parseWithGemini` return the
"gemini request failed" error (groups before it having succeeded, groups
after it never consulted), so no merged result is produced. -/
theorem gemini_first_failure_propagates :
    (∀ (env : GeminiEnv) (p : Bool) (desc : String) (gs1 : List String) (g : String)
        (gs2 : List String) (e : String),
      (∀ g' ∈ gs1, ∃ c, env.llm (buildPrompt g' desc) = .ok c) →
      env.llm (buildPrompt g desc) = .error e →
      processGroups env p desc (gs1 ++ g :: gs2) =
        .error ("gemini request failed: " ++ e)) ∧
    (∀ (env : GeminiEnv) (domChunks : List String) (desc : String) (gs1 : List String)
        (g : String) (gs2 : List String) (e : String),
      chunkGroups domChunks = gs1 ++ g :: gs2 →
      (∀ g' ∈ gs1, ∃ c, env.llm (buildPrompt g' desc) = .ok c) →
      env.llm (buildPrompt g desc) = .error e →
      parseWithGemini env domChunks desc = .error ("gemini request failed: " ++ e)) := by
  have main : ∀ (env : GeminiEnv) (p : Bool) (desc : String) (gs1 : List String) (g : String)
      (gs2 : List String) (e : String),
      (∀ g' ∈ gs1, ∃ c, env.llm (buildPrompt g' desc) = .ok c) →
      env.llm (buildPrompt g desc) = .error e →
      processGroups env p desc (gs1 ++ g :: gs2) =
        .error ("gemini request failed: " ++ e) := by
    intro env p desc gs1
    induction gs1 with
    | nil =>
      intro g gs2 e _ hg
      simp [processGroups, hg]
    | cons g' gs1 ih =>
      intro g gs2 e hok hg
      obtain ⟨c, hc⟩ := hok g' (by simp)
      have hrest := ih g gs2 e (fun x hx => hok x (by simp [hx])) hg
      by_cases hno : isNoResult (trimStr c) = true
      · simpa [processGroups, hc, hno] using hrest
      · simp [processGroups, hc, hno, hrest, Except.map]
  refine ⟨main, ?_⟩
  intro env domChunks desc gs1 g gs2 e hch hok hg
  have hmain := main env
    (containsAny (toLowerStr desc) ["extract product", "product information", "product details"])
    desc gs1 g gs2 e hok hg
  simp only [parseWithGemini, hch, hmain]

theorem gemini_first_failure_propagates_witness :
    processGroups envBoom true "d" ([] ++ "g" :: []) =
      .error "gemini request failed: boom" ∧
    parseWithGemini envBoom ["g"] "d" = .error "gemini request failed: boom" := by
  have h := gemini_first_failure_propagates
  exact ⟨h.1 envBoom true "d" [] "g" [] "boom" (by simp) rfl,
         h.2 envBoom ["g"] "d" [] "g" [] "boom" rfl (by simp) rfl⟩

/-! ### parseWithGemini: discarded responses and the sentinel (C7) -/

theorem processGroups_all_discarded (env : GeminiEnv) (p : Bool) (desc : String) :
    ∀ gs : List String,
    (∀ g ∈ gs, ∃ c, env.llm (buildPrompt g desc) = .ok c ∧ isNoResult (trimStr c) = true) →
    processGroups env p desc gs = .ok [] := by
  intro gs
  induction gs with
  | nil => intro _; rfl
  | cons g gs ih =>
    intro hall
    obtain ⟨c, hc, hno⟩ := hall g (by simp)
    have := ih (fun x hx => hall x (by simp [hx]))
    simp [processGroups, hc, hno, this]

/-- C7: a chunk-group response that is empty after trimming or equals a
canonical no-result phrase is discarded and contributes nothing to the
merge; and when every group's response is discarded, `parseWithGemini`
returns the canonical "NO_MATCH" sentinel string, not an empty record or
empty string. -/
theorem gemini_discard_and_sentinel :
    (∀ (env : GeminiEnv) (p : Bool) (desc : String) (gs1 : List String) (g : String)
        (gs2 : List String) (c : String),
      env.llm (buildPrompt g desc) = .ok c → isNoResult (trimStr c) = true →
      processGroups env p desc (gs1 ++ g :: gs2) = processGroups env p desc (gs1 ++ gs2)) ∧
    (∀ (env : GeminiEnv) (domChunks : List String) (desc : String),
      (∀ g ∈ chunkGroups domChunks,
        ∃ c, env.llm (buildPrompt g desc) = .ok c ∧ isNoResult (trimStr c) = true) →
      parseWithGemini env domChunks desc = .ok (.str "NO_MATCH")) := by
  constructor
  · intro env p desc gs1
    induction gs1 with
    | nil =>
      intro g gs2 c hc hno
      simp [processGroups, hc, hno]
    | cons g' gs1 ih =>
      intro g gs2 c hc hno
      have hrest := ih g gs2 c hc hno
      rcases hllm : env.llm (buildPrompt g' desc) with e' | c'
      · simp [processGroups, hllm]
      · by_cases hno' : isNoResult (trimStr c') = true
        · simpa [processGroups, hllm, hno'] using hrest
        · simp [processGroups, hllm, hno', hrest]
  · intro env domChunks desc hall
    have hpg := processGroups_all_discarded env
      (containsAny (toLowerStr desc) ["extract product", "product information", "product details"])
      desc (chunkGroups domChunks) hall
    simp only [parseWithGemini, hpg, List.isEmpty_nil, if_true]

theorem gemini_discard_and_sentinel_witness :
    processGroups envNoMatch true "d" (["g"] ++ "g2" :: ["h"]) =
      processGroups envNoMatch true "d" (["g"] ++ ["h"]) ∧
    parseWithGemini envNoMatch ["x"] "d" = .ok (.str "NO_MATCH") := by
  have h := gemini_discard_and_sentinel
  exact ⟨h.1 envNoMatch true "d" ["g"] "g2" ["h"] "No Match" rfl (by decide),
         h.2 envNoMatch ["x"] "d" (fun g _ => ⟨"No Match", rfl, by decide⟩)⟩

/-! ### Association-list map lemmas (the merge's combinedResults map) -/

theorem getVal_setKey (m : Record) (k k' : String) (v : GoVal) :
    getVal (setKey m k v) k' = if k = k' then some v else getVal m k' := by
  induction m with
  | nil => simp [setKey, getVal]
  | cons kv rest ih =>
    obtain ⟨k₁, v₁⟩ := kv
    by_cases h : k₁ = k
    · subst h
      by_cases h2 : k₁ = k'
      · subst h2; simp [setKey, getVal]
      · simp [setKey, getVal, h2]
    · by_cases h2 : k₁ = k'
      · subst h2
        have hne : k ≠ k₁ := fun hh => h hh.symm
        simp [setKey, getVal, h, hne]
      · simp [setKey, getVal, h, h2, ih]

theorem mergeEntry_eq_or_set (c : Record) (kv : String × GoVal) :
    mergeEntry c kv = c ∨ ∃ v, mergeEntry c kv = setKey c kv.1 v := by
  obtain ⟨k, v⟩ := kv
  by_cases hk : k = "user_manual" ∨ k = "other_documents"
  · cases v with
    | str s =>
      by_cases hs : s = "NO_MATCH"
      · left; simp [mergeEntry, hk, hs]
      · rcases hg : getVal c k with _ | gv
        · left; simp [mergeEntry, hk, hs, hg]
        · cases gv with
          | strList cur =>
            right
            exact ⟨.strList (cur ++ [s]), by simp [mergeEntry, hk, hs, hg]⟩
          | str s2 => left; simp [mergeEntry, hk, hs, hg]
          | other => left; simp [mergeEntry, hk, hs, hg]
    | strList xs =>
      rcases hg : getVal c k with _ | gv
      · left; simp [mergeEntry, hk, hg]
      · cases gv with
        | strList cur =>
          right
          exact ⟨.strList (cur ++ xs), by simp [mergeEntry, hk, hg]⟩
        | str s2 => left; simp [mergeEntry, hk, hg]
        | other => left; simp [mergeEntry, hk, hg]
    | other => left; simp [mergeEntry, hk]
  · cases v with
    | str s =>
      by_cases hs : s = "NO_MATCH"
      · left; simp [mergeEntry, hk, hs]
      · rcases hg : getVal c k with _ | gv
        · left; simp [mergeEntry, hk, hs, hg]
        · cases gv with
          | str cur =>
            by_cases hcur : cur = "NO_MATCH"
            · right
              exact ⟨.str s, by simp [mergeEntry, hk, hs, hg, hcur]⟩
            · left; simp [mergeEntry, hk, hs, hg, hcur]
          | strList xs => left; simp [mergeEntry, hk, hs, hg]
          | other => left; simp [mergeEntry, hk, hs, hg]
    | strList xs => left; simp [mergeEntry, hk]
    | other => left; simp [mergeEntry, hk]

theorem getVal_mergeEntry_ne (c : Record) (k : String) (kv : String × GoVal)
    (h : kv.1 ≠ k) : getVal (mergeEntry c kv) k = getVal c k := by
  rcases mergeEntry_eq_or_set c kv with he | ⟨v, he⟩
  · rw [he]
  · rw [he, getVal_setKey, if_neg h]

theorem getVal_foldl_mergeEntry_no_key (k : String) :
    ∀ (entries : List (String × GoVal)) (c : Record),
    (∀ kv ∈ entries, kv.1 ≠ k) →
    getVal (entries.foldl mergeEntry c) k = getVal c k := by
  intro entries
  induction entries with
  | nil => intro c _; rfl
  | cons kv rest ih =>
    intro c hne
    rw [List.foldl_cons, ih _ (fun x hx => hne x (by simp [hx])),
      getVal_mergeEntry_ne c k kv (hne kv (by simp))]

theorem getVal_dedupeStringSlice_ne (m : Record) (key k : String) (h : key ≠ k) :
    getVal (dedupeStringSlice m key) k = getVal m k := by
  unfold dedupeStringSlice
  rcases hg : getVal m key with _ | gv
  · rfl
  · cases gv with
    | strList xs => rw [getVal_setKey, if_neg h]
    | str s => rfl
    | other => rfl

theorem getVal_dedupeStringSlice_self (m : Record) (k : String) (xs : List String)
    (h : getVal m k = some (.strList xs)) :
    getVal (dedupeStringSlice m k) k = some (.strList (dedupeStringList xs)) := by
  unfold dedupeStringSlice
  rw [h, getVal_setKey, if_pos rfl]

/-! ### First-seen deduplication properties -/

theorem dedupe_go_mem :
    ∀ (xs acc : List String) (x : String),
    x ∈ xs.foldl (fun acc item => if item ∈ acc then acc else acc ++ [item]) acc ↔
      x ∈ acc ∨ x ∈ xs := by
  intro xs
  induction xs with
  | nil => intro acc x; simp
  | cons a xs ih =>
    intro acc x
    rw [List.foldl_cons]
    by_cases ha : a ∈ acc
    · rw [if_pos ha, ih]
      constructor
      · rintro (h | h)
        · exact Or.inl h
        · exact Or.inr (by simp [h])
      · rintro (h | h)
        · exact Or.inl h
        · rcases List.mem_cons.mp h with rfl | h
          · exact Or.inl ha
          · exact Or.inr h
    · rw [if_neg ha, ih]
      simp only [List.mem_append, List.mem_singleton, List.mem_cons]
      tauto

theorem dedupe_go_nodup :
    ∀ (xs acc : List String), acc.Nodup →
    (xs.foldl (fun acc item => if item ∈ acc then acc else acc ++ [item]) acc).Nodup := by
  intro xs
  induction xs with
  | nil => intro acc h; exact h
  | cons a xs ih =>
    intro acc hacc
    rw [List.foldl_cons]
    by_cases ha : a ∈ acc
    · rw [if_pos ha]; exact ih acc hacc
    · rw [if_neg ha]
      exact ih _ (by simp [List.nodup_append, hacc, ha])

theorem dedupe_go_pairwise :
    ∀ (rest done acc J : List String), J = done ++ rest →
    (∀ x, x ∈ acc ↔ x ∈ done) →
    acc.Pairwise (fun a b => J.indexOf a < J.indexOf b) →
    (rest.foldl (fun acc item => if item ∈ acc then acc else acc ++ [item]) acc).Pairwise
      (fun a b => J.indexOf a < J.indexOf b) := by
  intro rest
  induction rest with
  | nil => intro done acc J _ _ hp; exact hp
  | cons x rest ih =>
    intro done acc J hJ hmem hp
    rw [List.foldl_cons]
    by_cases hx : x ∈ acc
    · rw [if_pos hx]
      refine ih (done ++ [x]) acc J (by simp [hJ]) ?_ hp
      intro z
      rw [hmem z]
      simp only [List.mem_append, List.mem_singleton]
      constructor
      · exact fun h => Or.inl h
      · rintro (h | rfl)
        · exact h
        · exact (hmem z).mp hx
    · rw [if_neg hx]
      have hxdone : x ∉ done := fun h => hx ((hmem x).mpr h)
      refine ih (done ++ [x]) (acc ++ [x]) J (by simp [hJ]) ?_ ?_
      · intro z
        simp only [List.mem_append, List.mem_singleton, hmem z]
      · rw [List.pairwise_append]
        refine ⟨hp, by simp, ?_⟩
        intro a ha b hb
        rcases List.mem_singleton.mp hb with rfl
        have hadone : a ∈ done := (hmem a).mp ha
        have h1 : J.indexOf a < done.length := by
          rw [hJ, List.indexOf_append_of_mem hadone]
          exact List.indexOf_lt_length.mpr hadone
        have h2 : J.indexOf b = done.length := by
          rw [hJ, List.indexOf_append_of_not_mem hxdone, List.indexOf_cons_self]
          rfl
        omega

theorem dedupeStringList_spec (xs : List String) :
    (dedupeStringList xs).Nodup ∧
    (∀ x, x ∈ dedupeStringList xs ↔ x ∈ xs) ∧
    (dedupeStringList xs).Pairwise
      (fun a b => xs.indexOf a < xs.indexOf b) := by
  refine ⟨dedupe_go_nodup xs [] (by simp), ?_, ?_⟩
  · intro x
    rw [dedupeStringList, dedupe_go_mem]
    simp
  · exact dedupe_go_pairwise xs [] [] xs rfl (by simp) (by simp)

/-! ### Scalar fields of the product merge (C5) -/

theorem foldl_mergeEntry_scalar (k : String)
    (hk1 : k ≠ "user_manual") (hk2 : k ≠ "other_documents") :
    ∀ (r c : Record) (cur : String),
    (List.map Prod.fst r).Nodup → getVal c k = some (.str cur) →
    getVal (r.foldl mergeEntry c) k = some (.str
      (if cur = "NO_MATCH" then
        (match getVal r k with
         | some (.str v) => if v = "NO_MATCH" then "NO_MATCH" else v
         | _ => "NO_MATCH")
       else cur)) := by
  have hknot : ¬(k = "user_manual" ∨ k = "other_documents") := by
    rintro (h | h)
    · exact hk1 h
    · exact hk2 h
  intro r
  induction r with
  | nil =>
    intro c cur _ hc
    simp only [List.foldl_nil, getVal]
    split_ifs with h
    · rw [h] at hc; exact hc
    · exact hc
  | cons kv rest ih =>
    intro c cur hnd hc
    obtain ⟨k₁, v₁⟩ := kv
    rw [List.foldl_cons]
    by_cases hk₁ : k₁ = k
    · subst hk₁
      have hnk : ∀ kv' ∈ rest, kv'.1 ≠ k₁ := by
        intro kv' hkv' heq
        exact (List.nodup_cons.mp (by simpa using hnd)).1
          (heq ▸ List.mem_map_of_mem Prod.fst hkv')
      rw [getVal_foldl_mergeEntry_no_key k₁ rest _ hnk]
      cases v₁ with
      | str s =>
        by_cases hs : s = "NO_MATCH"
        · by_cases hcur : cur = "NO_MATCH" <;>
            simp [mergeEntry, hknot, hs, hc, hcur, getVal]
        · by_cases hcur : cur = "NO_MATCH"
          · simp [mergeEntry, hknot, hs, hc, hcur, getVal_setKey, getVal]
          · simp [mergeEntry, hknot, hs, hc, hcur, getVal]
      | strList xs =>
        by_cases hcur : cur = "NO_MATCH" <;>
          simp [mergeEntry, hknot, hc, hcur, getVal]
      | other =>
        by_cases hcur : cur = "NO_MATCH" <;>
          simp [mergeEntry, hknot, hc, hcur, getVal]
    · have hc' : getVal (mergeEntry c (k₁, v₁)) k = some (.str cur) := by
        rw [getVal_mergeEntry_ne c k (k₁, v₁) hk₁]; exact hc
      rw [ih _ cur (List.nodup_cons.mp (by simpa using hnd)).2 hc']
      simp [getVal, hk₁]

theorem foldl_records_scalar (k : String)
    (hk1 : k ≠ "user_manual") (hk2 : k ≠ "other_documents") :
    ∀ (rs : List Record) (c : Record) (cur : String),
    (∀ r ∈ rs, (List.map Prod.fst r).Nodup) → getVal c k = some (.str cur) →
    getVal (rs.foldl (fun c r => List.foldl mergeEntry c r) c) k =
      some (.str (if cur = "NO_MATCH" then specFirstNonPlaceholder rs k else cur)) := by
  intro rs
  induction rs with
  | nil =>
    intro c cur _ hc
    simp only [List.foldl_nil, specFirstNonPlaceholder]
    split_ifs with h
    · rw [h] at hc; exact hc
    · exact hc
  | cons r rs ih =>
    intro c cur hnd hc
    rw [List.foldl_cons]
    have hrec := foldl_mergeEntry_scalar k hk1 hk2 r c cur (hnd r (by simp)) hc
    have htail : ∀ r' ∈ rs, (List.map Prod.fst r').Nodup :=
      fun r' hr' => hnd r' (by simp [hr'])
    by_cases hcur : cur = "NO_MATCH"
    · rcases hg : getVal r k with _ | gv
      · rw [hg] at hrec
        simp only [hcur, if_pos rfl] at hrec
        rw [ih _ "NO_MATCH" htail hrec]
        simp [specFirstNonPlaceholder, hg, hcur]
      · cases gv with
        | str v =>
          rw [hg] at hrec
          by_cases hv : v = "NO_MATCH"
          · simp only [hcur, if_pos rfl, hv, if_pos rfl] at hrec
            rw [ih _ "NO_MATCH" htail hrec]
            simp [specFirstNonPlaceholder, hg, hcur, hv]
          · simp only [hcur, if_pos rfl, hv, if_neg hv] at hrec
            rw [ih _ v htail hrec]
            simp [specFirstNonPlaceholder, hg, hcur, hv]
        | strList xs =>
          rw [hg] at hrec
          simp only [hcur, if_pos rfl] at hrec
          rw [ih _ "NO_MATCH" htail hrec]
          simp [specFirstNonPlaceholder, hg, hcur]
        | other =>
          rw [hg] at hrec
          simp only [hcur, if_pos rfl] at hrec
          rw [ih _ "NO_MATCH" htail hrec]
          simp [specFirstNonPlaceholder, hg, hcur]
    · simp only [if_neg hcur] at hrec
      rw [ih _ cur htail hrec]
      simp [hcur]

theorem foldlM_merge_records :
    ∀ (rs : List Record) (c : Record),
    (∀ r ∈ rs, getVal r "raw_content" = none) →
    List.foldlM (fun c item => match item with
      | FoundItem.record r => mergeRecord c r
      | FoundItem.text _ => none) c (rs.map FoundItem.record) =
      some (rs.foldl (fun c r => List.foldl mergeEntry c r) c) := by
  intro rs
  induction rs with
  | nil => intro c _; rfl
  | cons r rs ih =>
    intro c hraw
    have hr : mergeRecord c r = some (List.foldl mergeEntry c r) := by
      unfold mergeRecord
      rw [hraw r (by simp)]
    rw [List.map_cons, List.foldlM_cons]
    simp only [hr, Option.bind_eq_bind, Option.some_bind]
    exact ih _ (fun x hx => hraw x (by simp [hx]))

theorem combineFound_eq_mergeRecords (rs : List Record)
    (hraw : ∀ r ∈ rs, getVal r "raw_content" = none) :
    combineFound (rs.map FoundItem.record) = some (mergeRecords rs) := by
  unfold combineFound mergeRecords
  exact foldlM_merge_records rs initCombined hraw

/-- C5: in the structured product merge, every scalar field of the merged
record equals the first non-placeholder value for that field across the
chunk-group records in original order; later differing values are
discarded, never overwriting the earlier one.  The deduplication pass at
the end does not touch the scalar fields. -/
theorem merge_scalar_first_wins (rs : List Record) (k : String)
    (hk : k = "name" ∨ k = "model_number" ∨ k = "serial_number" ∨ k = "warranty_info")
    (hnd : ∀ r ∈ rs, (List.map Prod.fst r).Nodup)
    (hraw : ∀ r ∈ rs, getVal r "raw_content" = none) :
    combineFound (rs.map FoundItem.record) = some (mergeRecords rs) ∧
    getVal (mergeRecords rs) k = some (.str (specFirstNonPlaceholder rs k)) ∧
    getVal (dedupeCombined (mergeRecords rs)) k =
      some (.str (specFirstNonPlaceholder rs k)) := by
  have hinit : getVal initCombined k = some (.str "NO_MATCH") := by
    rcases hk with rfl | rfl | rfl | rfl <;> rfl
  have hk1 : k ≠ "user_manual" := by
    rcases hk with rfl | rfl | rfl | rfl <;> decide
  have hk2 : k ≠ "other_documents" := by
    rcases hk with rfl | rfl | rfl | rfl <;> decide
  have hk3 : k ≠ "additional_info" := by
    rcases hk with rfl | rfl | rfl | rfl <;> decide
  have hmain := foldl_records_scalar k hk1 hk2 rs initCombined "NO_MATCH" hnd hinit
  rw [if_pos rfl] at hmain
  have hmerged : getVal (mergeRecords rs) k =
      some (.str (specFirstNonPlaceholder rs k)) := hmain
  refine ⟨combineFound_eq_mergeRecords rs hraw, hmerged, ?_⟩
  unfold dedupeCombined
  rw [getVal_dedupeStringSlice_ne _ _ _ (Ne.symm hk3),
    getVal_dedupeStringSlice_ne _ _ _ (Ne.symm hk2),
    getVal_dedupeStringSlice_ne _ _ _ (Ne.symm hk1)]
  exact hmerged

theorem merge_scalar_first_wins_witness :
    getVal (mergeRecords recsFixture) "serial_number" = some (.str "AB123") ∧
    getVal (mergeRecords recsFixture) "model_number" = some (.str "X9") ∧
    combineFound (recsFixture.map FoundItem.record) = some (mergeRecords recsFixture) := by
  have h1 := merge_scalar_first_wins recsFixture "serial_number"
    (Or.inr (Or.inr (Or.inl rfl))) (by decide) (by decide)
  have h2 := merge_scalar_first_wins recsFixture "model_number"
    (Or.inr (Or.inl rfl)) (by decide) (by decide)
  refine ⟨?_, ?_, h1.1⟩
  · rw [h1.2.1]; decide
  · rw [h2.2.1]; decide

/-! ### List-valued fields of the product merge (C6) -/

theorem foldl_mergeEntry_list (k : String)
    (hk : k = "user_manual" ∨ k = "other_documents") :
    ∀ (r c : Record) (acc : List String),
    (List.map Prod.fst r).Nodup → getVal c k = some (.strList acc) →
    getVal (r.foldl mergeEntry c) k = some (.strList (acc ++ listContrib r k)) := by
  intro r
  induction r with
  | nil =>
    intro c acc _ hc
    simp [listContrib, getVal, hc]
  | cons kv rest ih =>
    intro c acc hnd hc
    obtain ⟨k₁, v₁⟩ := kv
    rw [List.foldl_cons]
    by_cases hk₁ : k₁ = k
    · subst hk₁
      have hnk : ∀ kv' ∈ rest, kv'.1 ≠ k₁ := by
        intro kv' hkv' heq
        exact (List.nodup_cons.mp (by simpa using hnd)).1
          (heq ▸ List.mem_map_of_mem Prod.fst hkv')
      rw [getVal_foldl_mergeEntry_no_key k₁ rest _ hnk]
      cases v₁ with
      | strList xs =>
        simp [mergeEntry, hk, hc, getVal_setKey, listContrib, getVal]
      | str s =>
        by_cases hs : s = "NO_MATCH"
        · simp [mergeEntry, hk, hc, hs, listContrib, getVal]
        · simp [mergeEntry, hk, hc, hs, getVal_setKey, listContrib, getVal]
      | other =>
        simp [mergeEntry, hk, hc, listContrib, getVal]
    · have hc' : getVal (mergeEntry c (k₁, v₁)) k = some (.strList acc) := by
        rw [getVal_mergeEntry_ne c k (k₁, v₁) hk₁]; exact hc
      rw [ih _ acc (List.nodup_cons.mp (by simpa using hnd)).2 hc']
      simp [listContrib, getVal, hk₁]

theorem foldl_records_list (k : String)
    (hk : k = "user_manual" ∨ k = "other_documents") :
    ∀ (rs : List Record) (c : Record) (acc : List String),
    (∀ r ∈ rs, (List.map Prod.fst r).Nodup) → getVal c k = some (.strList acc) →
    getVal (rs.foldl (fun c r => List.foldl mergeEntry c r) c) k =
      some (.strList (acc ++ (rs.map (fun r => listContrib r k)).flatten)) := by
  intro rs
  induction rs with
  | nil =>
    intro c acc _ hc
    simpa using hc
  | cons r rs ih =>
    intro c acc hnd hc
    rw [List.foldl_cons]
    have hrec := foldl_mergeEntry_list k hk r c acc (hnd r (by simp)) hc
    rw [ih _ _ (fun r' hr' => hnd r' (by simp [hr'])) hrec]
    simp

/-- C6: in the structured product merge, each list-valued (document) field
of the merged result is the concatenation of the per-group contributions
in chunk order passed through first-seen deduplication: every element of
the combined lists appears exactly once, ordered by its first occurrence
across groups. -/
theorem merge_list_union_dedupe (rs : List Record) (k : String)
    (hk : k = "user_manual" ∨ k = "other_documents")
    (hnd : ∀ r ∈ rs, (List.map Prod.fst r).Nodup) :
    getVal (dedupeCombined (mergeRecords rs)) k =
      some (.strList (dedupeStringList ((rs.map (fun r => listContrib r k)).flatten))) ∧
    (dedupeStringList ((rs.map (fun r => listContrib r k)).flatten)).Nodup ∧
    (∀ x, x ∈ dedupeStringList ((rs.map (fun r => listContrib r k)).flatten) ↔
      x ∈ (rs.map (fun r => listContrib r k)).flatten) ∧
    (dedupeStringList ((rs.map (fun r => listContrib r k)).flatten)).Pairwise
      (fun a b => ((rs.map (fun r => listContrib r k)).flatten).indexOf a <
        ((rs.map (fun r => listContrib r k)).flatten).indexOf b) := by
  have hinit : getVal initCombined k = some (.strList []) := by
    rcases hk with rfl | rfl <;> rfl
  have hmerged : getVal (mergeRecords rs) k =
      some (.strList ((rs.map (fun r => listContrib r k)).flatten)) := by
    have h := foldl_records_list k hk rs initCombined [] hnd hinit
    simpa using h
  have hspec := dedupeStringList_spec ((rs.map (fun r => listContrib r k)).flatten)
  refine ⟨?_, hspec.1, hspec.2.1, hspec.2.2⟩
  unfold dedupeCombined
  rcases hk with rfl | rfl
  · rw [getVal_dedupeStringSlice_ne _ _ _ (by decide),
      getVal_dedupeStringSlice_ne _ _ _ (by decide)]
    exact getVal_dedupeStringSlice_self _ _ _ hmerged
  · rw [getVal_dedupeStringSlice_ne _ _ _ (by decide)]
    refine getVal_dedupeStringSlice_self _ _ _ ?_
    rw [getVal_dedupeStringSlice_ne _ _ _ (by decide)]
    exact hmerged

theorem merge_list_union_dedupe_witness :
    getVal (dedupeCombined (mergeRecords recsListFixture)) "user_manual" =
      some (.strList ["manual.pdf", "spec.pdf"]) ∧
    (["manual.pdf", "spec.pdf"] : List String).Nodup := by
  have h := merge_list_union_dedupe recsListFixture "user_manual" (Or.inl rfl) (by decide)
  constructor
  · rw [h.1]; decide
  · decide

end LLMScraper
